import Mathlib

/-!
# KidSafe PC — hosts-file blocking engine, verified model

A shallow embedding of the core of the KidSafe PC parental-control agent:
the hosts-file section manager and privileged-write chain
(`hosts_manager.go`), the domain normalizers (`main.go` `normalizeDomain`,
`firebase_service.go` `extractDomain`), the multi-path polling reconciler
(`firebase_service.go`), and the local rule store operations
(`handleAddRule`, `syncToLocalDatabase`, `syncRulesToHosts`).

Go strings are modeled as `List Char` (`GoStr`); Go maps are modeled as
insertion-ordered association/membership lists, which determinizes Go's
unspecified map iteration order.  File-system and process effects are
modeled by an explicit oracle environment (`WriteEnv`) saying which write
strategies succeed, with each primitive write atomic: it either replaces
the file content or leaves it unchanged.
-/

namespace KidSafe

/-- Go strings, byte-for-byte (ASCII-level model). -/
abbrev GoStr := List Char

/-- Coerce a Lean string literal to the `GoStr` model. -/
def gs (s : String) : GoStr := s.data

/-- `unicode.IsSpace` restricted to the ASCII range (the only characters
the repository's data can contain that matter here). -/
def isSpaceGo (c : Char) : Bool :=
  c = ' ' || c = '\t' || c = '\n' || c = '\r' || c = '\x0b' || c = '\x0c'

/-- `strings.ToLower` on ASCII. -/
def goToLowerChar (c : Char) : Char :=
  if 'A' ≤ c && c ≤ 'Z' then Char.ofNat (c.toNat + 32) else c

def goToLower (s : GoStr) : GoStr := s.map goToLowerChar

/-- `strings.TrimSpace`. -/
def goTrimSpace (s : GoStr) : GoStr :=
  ((s.dropWhile isSpaceGo).reverse.dropWhile isSpaceGo).reverse

/-- `strings.HasPrefix`. -/
def goStartsWith (p s : GoStr) : Bool := p.isPrefixOf s

/-- `strings.TrimPrefix`. -/
def goTrimPref (p s : GoStr) : GoStr :=
  if p.isPrefixOf s then s.drop p.length else s

/-- `strings.Split` with a one-character separator. -/
def goSplit (sep : Char) : GoStr → List GoStr
  | [] => [[]]
  | c :: cs =>
    match goSplit sep cs with
    | [] => [[c]]
    | y :: ys => if c = sep then [] :: y :: ys else (c :: y) :: ys

/-- `strings.Join` with a one-character separator. -/
def goJoin (sep : Char) : List GoStr → GoStr
  | [] => []
  | [x] => x
  | x :: y :: ys => x ++ sep :: goJoin sep (y :: ys)

/-- `strings.Contains`. -/
def goContains : GoStr → GoStr → Bool
  | [], n => n.isEmpty
  | c :: cs, n => n.isPrefixOf (c :: cs) || goContains cs n

/-- `strings.Fields` (split around runs of whitespace): accumulator form. -/
def goFieldsAux (cur : GoStr) : GoStr → List GoStr
  | [] => if cur = [] then [] else [cur.reverse]
  | c :: cs =>
    if isSpaceGo c then
      if cur = [] then goFieldsAux [] cs else cur.reverse :: goFieldsAux [] cs
    else goFieldsAux (c :: cur) cs

def goFields (s : GoStr) : List GoStr := goFieldsAux [] s

/-! ## Hosts manager (`hosts_manager.go`)

Constants from the source: `BlockedIP = "127.0.0.1"`; the managed section
is delimited by the marker comment lines below, recognised by
`strings.Contains` on the marker texts. -/

def BlockedIP : GoStr := gs "127.0.0.1"

def startText : GoStr := gs "KidSafe PC Blocked Domains - START"

def endText : GoStr := gs "KidSafe PC Blocked Domains - END"

def startLine : GoStr := gs "# === KidSafe PC Blocked Domains - START ==="

def endLine : GoStr := gs "# === KidSafe PC Blocked Domains - END ==="

/-- In-memory state of `HostsManager`: the startup snapshot of the hosts
file and the blocked-domain set.  The Go `map[string]bool` (whose entries
always hold `true`) is modeled as an insertion-ordered duplicate-free
list, which determinizes Go's unspecified map iteration order. -/
structure HostsManager where
  originalHosts : GoStr
  blockedDomains : List GoStr
deriving DecidableEq

/-- Go `map[k] = true` on the insertion-ordered set model. -/
def insertSet (ds : List GoStr) (d : GoStr) : List GoStr :=
  if d ∈ ds then ds else ds ++ [d]

/-- Go `delete(map, k)` on the set model. -/
def removeSet (ds : List GoStr) (d : GoStr) : List GoStr :=
  ds.filter (fun x => x ≠ d)

/-- The body of `AddBlockedDomain`'s map mutation: add the domain and,
when it does not already start with `"www."`, its `www.` variant. -/
def addWithWww (ds : List GoStr) (d : GoStr) : List GoStr :=
  let ds1 := insertSet ds d
  if goStartsWith (gs "www.") d then ds1 else insertSet ds1 (gs "www." ++ d)

/-- The map rebuilt by `UpdateBlockedDomains`: clear, then for each input
lowercase+trim it, skip empties, and insert it with its `www.` variant. -/
def updDomains (domains : List GoStr) : List GoStr :=
  domains.foldl
    (fun acc raw =>
      let d := goToLower (goTrimSpace raw)
      if d = [] then acc else addWithWww acc d) []

namespace HostsManager

/-- `cleanKidSafeSection`'s per-line state machine: drop marker lines and
every line between a START and the next END marker. -/
def cleanLines (inSec : Bool) : List GoStr → List GoStr
  | [] => []
  | l :: ls =>
    if goContains l startText then cleanLines true ls
    else if goContains l endText then cleanLines false ls
    else if inSec then cleanLines true ls
    else l :: cleanLines false ls

/-- `cleanKidSafeSection`: split on `\n`, drop the KidSafe section, rejoin. -/
def cleanKidSafeSection (content : GoStr) : GoStr :=
  goJoin '\n' (cleanLines false (goSplit '\n' content))

/-- One `"127.0.0.1 domain"` line of the managed section. -/
def domLine (d : GoStr) : GoStr := BlockedIP ++ ' ' :: d

/-- The string content computed by `updateHostsFile` before it is handed
to `writeHostsFile`: the cleaned current content followed by the marker
block with one line per blocked domain (map iterated in model order). -/
def updateHostsFileContent (cur : GoStr) (domains : List GoStr) : GoStr :=
  cleanKidSafeSection cur
    ++ '\n' :: '\n' :: startLine
    ++ '\n' :: (domains.map (fun d => domLine d ++ ['\n'])).flatten
    ++ endLine ++ ['\n']

/-- `VerifyHostsFile`'s per-line parser: trim, track the markers, and in
the section collect the first two whitespace-separated fields of each
non-empty non-comment line as an (ip, hostname) pair. -/
def parseLines (inSec : Bool) : List GoStr → List (GoStr × GoStr)
  | [] => []
  | l :: ls =>
    let t := goTrimSpace l
    if goContains t startText then parseLines true ls
    else if goContains t endText then parseLines false ls
    else if inSec && !(t = []) && !(goStartsWith (gs "#") t) then
      match goFields t with
      | ip :: dom :: _ => (ip, dom) :: parseLines inSec ls
      | _ => parseLines inSec ls
    else parseLines inSec ls

/-- The (ip, hostname) pairs `VerifyHostsFile` reads back from the managed
section of a hosts-file content (`found[domain] = ip` before the
`ip == BlockedIP` comparison). -/
def VerifyHostsFilePairs (content : GoStr) : List (GoStr × GoStr) :=
  parseLines false (goSplit '\n' content)

/-- The raw lines of the managed section (lines strictly between the
START and END markers), for stating byte-identity of the section. -/
def sectionLines (inSec : Bool) : List GoStr → List GoStr
  | [] => []
  | l :: ls =>
    if goContains l startText then sectionLines true ls
    else if goContains l endText then sectionLines false ls
    else if inSec then l :: sectionLines true ls
    else sectionLines false ls

/-- The managed-section content of a hosts file, byte-for-byte. -/
def managedSectionContent (content : GoStr) : GoStr :=
  goJoin '\n' (sectionLines false (goSplit '\n' content))

/-! ### The privileged write chain (`writeHostsFile`)

Success or failure of each OS-level primitive is an oracle bit in
`WriteEnv`; a successful primitive atomically replaces the hosts-file
content, a failed one leaves it unchanged.  `takeown`/`icacls /grant`
failures in strategy 5 only influence a log line in the source, so they
carry no oracle bit; strategy 5's outcome is the retried direct write. -/

structure WriteEnv where
  /-- `os.ReadFile` of the hosts file succeeds (`updateHostsFile` falls
  back to the startup snapshot when it fails). -/
  readOk : Bool
  /-- strategy 1: direct `os.WriteFile`. -/
  directOk : Bool
  /-- strategy 2a: `os.WriteFile` of the `.tmp` file. -/
  tempCreateOk : Bool
  /-- strategy 2b: `os.Rename` of the temp file into place. -/
  renameOk : Bool
  /-- strategy 3: elevated PowerShell write. -/
  psOk : Bool
  /-- strategy 4a: `os.WriteFile` of robocopy's temp file.  When this
  fails the source returns that error at once, so neither robocopy nor
  the icacls fallback is attempted. -/
  roboTempOk : Bool
  /-- strategy 4b: the robocopy copy itself. -/
  roboOk : Bool
  /-- strategy 5: the direct write retried after the permission reset. -/
  icaclsWriteOk : Bool
deriving DecidableEq

/-- `writeHostsWithIcacls`: permission games, then retry the direct write. -/
def writeHostsWithIcacls (e : WriteEnv) (content disk : GoStr) :
    Except GoStr Unit × GoStr :=
  if e.icaclsWriteOk then (.ok (), content)
  else (.error (gs "icacls approach failed"), disk)

/-- `writeHostsWithRobocopy`: write the temp file — a failure there is
returned immediately, with no icacls fallback (the source's early
`return` at the temp-file write) — then robocopy, falling back to
icacls only on a robocopy error. -/
def writeHostsWithRobocopy (e : WriteEnv) (content disk : GoStr) :
    Except GoStr Unit × GoStr :=
  if !e.roboTempOk then (.error (gs "failed to create temp file"), disk)
  else if e.roboOk then (.ok (), content)
  else writeHostsWithIcacls e content disk

/-- `writeHostsWithPowerShell`. -/
def writeHostsWithPowerShell (e : WriteEnv) (content disk : GoStr) :
    Except GoStr Unit × GoStr :=
  if e.psOk then (.ok (), content)
  else (.error (gs "failed to write hosts file with elevated permissions"), disk)

def allFailedMsg : GoStr :=
  gs "all hosts file write strategies failed - check administrator permissions and antivirus settings"

/-- `writeHostsFile`: the five-strategy chain, in source order. -/
def writeHostsFile (e : WriteEnv) (content disk : GoStr) :
    Except GoStr Unit × GoStr :=
  if e.directOk then (.ok (), content)
  else if e.tempCreateOk && e.renameOk then (.ok (), content)
  else
    match writeHostsWithPowerShell e content disk with
    | (.ok _, d) => (.ok (), d)
    | (.error _, _) =>
      match writeHostsWithRobocopy e content disk with
      | (.ok _, d) => (.ok (), d)
      | (.error _, _) => (.error allFailedMsg, disk)

/-- The five strategies of the chain, as the ordered list of their
effective success bits (direct, temp+rename, PowerShell, robocopy,
icacls-retry).  Strategy 4 needs its temp file (`roboTempOk && roboOk`),
and strategy 5 is only reached — hence can only take effect — when the
robocopy temp file was created (`roboTempOk && icaclsWriteOk`): a
temp-file failure aborts the chain with strategy 5 untried. -/
def strategyBits (e : WriteEnv) : List Bool :=
  [e.directOk, e.tempCreateOk && e.renameOk, e.psOk,
    e.roboTempOk && e.roboOk, e.roboTempOk && e.icaclsWriteOk]

/-- `updateHostsFile`: recompute the desired content from the on-disk
content (or the startup snapshot if the read fails) and write it. -/
def updateHostsFile (e : WriteEnv) (hm : HostsManager) (disk : GoStr) :
    Except GoStr Unit × GoStr :=
  writeHostsFile e
    (updateHostsFileContent (if e.readOk then disk else hm.originalHosts) hm.blockedDomains)
    disk

/-- `AddBlockedDomain`: normalize, reject empty, mutate the map, write. -/
def AddBlockedDomain (e : WriteEnv) (hm : HostsManager) (disk : GoStr)
    (domain : GoStr) : Except GoStr Unit × HostsManager × GoStr :=
  let d := goToLower (goTrimSpace domain)
  if d = [] then (.error (gs "domain cannot be empty"), hm, disk)
  else
    let hm' := { hm with blockedDomains := addWithWww hm.blockedDomains d }
    let r := updateHostsFile e hm' disk
    (r.1, hm', r.2)

/-- `RemoveBlockedDomain`: normalize, delete both map entries, write. -/
def RemoveBlockedDomain (e : WriteEnv) (hm : HostsManager) (disk : GoStr)
    (domain : GoStr) : Except GoStr Unit × HostsManager × GoStr :=
  let d := goToLower (goTrimSpace domain)
  let hm' := { hm with
    blockedDomains := removeSet (removeSet hm.blockedDomains d) (gs "www." ++ d) }
  let r := updateHostsFile e hm' disk
  (r.1, hm', r.2)

/-- `UpdateBlockedDomains` (full replacement, used by the reconciler).
The managed section is emitted in the model's canonical (insertion)
order of the rebuilt map; see `UpdateBlockedDomainsWithOrder` for the
variant that leaves Go's per-call map iteration order free. -/
def UpdateBlockedDomains (e : WriteEnv) (hm : HostsManager) (disk : GoStr)
    (domains : List GoStr) : Except GoStr Unit × HostsManager × GoStr :=
  let hm' := { hm with blockedDomains := updDomains domains }
  let r := updateHostsFile e hm' disk
  (r.1, hm', r.2)

/-- `UpdateBlockedDomains` with the iteration order of `updateHostsFile`'s
`range` over the rebuilt map made explicit.  Go randomizes map iteration
independently on every call, so each call emits the section's domain
lines in some permutation `ord` of the map's key set
(`updDomains domains`); an execution of the program corresponds to some
such `ord`, and `UpdateBlockedDomains` above is the instance
`ord = updDomains domains`. -/
def UpdateBlockedDomainsWithOrder (e : WriteEnv) (hm : HostsManager)
    (disk : GoStr) (domains : List GoStr) (ord : List GoStr) :
    Except GoStr Unit × HostsManager × GoStr :=
  let hm' := { hm with blockedDomains := updDomains domains }
  let r := writeHostsFile e
    (updateHostsFileContent (if e.readOk then disk else hm'.originalHosts) ord) disk
  (r.1, hm', r.2)

/-- `GetBlockedDomains`: list the map keys, skipping `www.` variants. -/
def GetBlockedDomains (hm : HostsManager) : List GoStr :=
  hm.blockedDomains.filter (fun d => !(goStartsWith (gs "www.") d))

/-- `IsBlocked`: normalize and look the key up in the map. -/
def IsBlocked (hm : HostsManager) (domain : GoStr) : Bool :=
  decide (goToLower (goTrimSpace domain) ∈ hm.blockedDomains)

end HostsManager

/-! ## Domain normalizers

`extractDomain` (`firebase_service.go`) is plain prefix/ually split
processing.  `normalizeDomain` (`main.go`) routes through `url.Parse` and
`net.SplitHostPort`; those two standard-library functions are modeled
below at the level of detail they are exercised with here: scheme
stripping, authority extraction, userinfo/host/port validation, and Go's
host rule for percent-escapes (only `%25` and escapes of non-ASCII bytes
are legal in a host). -/

/-- `extractDomain`: strip `https://`/`http://`/`www.` prefixes, keep the
part before the first `/`, drop a `:`-suffix, reject empty or
space-containing results. -/
def extractDomain (url : GoStr) : GoStr :=
  let u1 := goTrimPref (gs "https://") url
  let u2 := goTrimPref (gs "http://") u1
  let u3 := goTrimPref (gs "www.") u2
  let dom1 := (goSplit '/' u3).headD []
  let dom2 := (goSplit ':' dom1).headD []
  if dom2 = [] || goContains dom2 (gs " ") then [] else dom2

def isDigitGo (c : Char) : Bool := '0' ≤ c && c ≤ '9'

def isAlphaGo (c : Char) : Bool := ('a' ≤ c && c ≤ 'z') || ('A' ≤ c && c ≤ 'Z')

def isHexGo (c : Char) : Bool :=
  isDigitGo c || ('a' ≤ c && c ≤ 'f') || ('A' ≤ c && c ≤ 'F')

def hexVal (c : Char) : Nat :=
  if isDigitGo c then c.toNat - '0'.toNat
  else if 'a' ≤ c && c ≤ 'f' then c.toNat - 'a'.toNat + 10
  else c.toNat - 'A'.toNat + 10

/-- Characters `net/url` accepts unescaped in a host component
(unreserved, sub-delims, `:[]<>"`, and non-ASCII bytes). -/
def hostRawCharOk (c : Char) : Bool :=
  isAlphaGo c || isDigitGo c ||
  c = '-' || c = '.' || c = '_' || c = '~' ||
  c = '!' || c = '$' || c = '&' || c = '\'' || c = '(' || c = ')' ||
  c = '*' || c = '+' || c = ',' || c = ';' || c = '=' ||
  c = ':' || c = '[' || c = ']' || c = '<' || c = '>' || c = '"' ||
  decide (c.toNat ≥ 0x80)

/-- `net/url` host validation and unescaping: a raw `%` must begin a
two-hex-digit escape, and escapes of ASCII bytes are rejected except
`%25`. -/
def unescapeHost : GoStr → Option GoStr
  | [] => some []
  | '%' :: a :: b :: rest =>
    if isHexGo a && isHexGo b then
      if hexVal a ≥ 8 || (a = '2' && b = '5') then
        (unescapeHost rest).map (fun r => Char.ofNat (hexVal a * 16 + hexVal b) :: r)
      else none
    else none
  | ['%'] => none
  | ['%', _] => none
  | c :: rest =>
    if hostRawCharOk c then (unescapeHost rest).map (fun r => c :: r) else none

/-- `net/url.validOptionalPort`. -/
def validOptionalPort (p : GoStr) : Bool :=
  match p with
  | [] => true
  | ':' :: digits => digits.all isDigitGo
  | _ => false

def firstIndexOf (c : Char) (s : GoStr) : Option Nat := s.findIdx? (fun x => x = c)

def lastIndexOf (c : Char) (s : GoStr) : Option Nat :=
  match s.reverse.findIdx? (fun x => x = c) with
  | none => none
  | some i => some (s.length - 1 - i)

/-- `net/url.parseHost`: validate an optional port after the last colon
(or after the bracket of an IPv6 literal), then validate/unescape the
whole host-with-port, which is what `url.URL.Host` carries. -/
def parseHostGo (hostport : GoStr) : Option GoStr :=
  if goStartsWith (gs "[") hostport then
    match lastIndexOf ']' hostport with
    | none => none
    | some i =>
      if validOptionalPort (hostport.drop (i + 1)) then unescapeHost hostport else none
  else
    match lastIndexOf ':' hostport with
    | none => unescapeHost hostport
    | some i =>
      if validOptionalPort (hostport.drop i) then unescapeHost hostport else none

/-- Characters `net/url.validUserinfo` accepts. -/
def validUserinfoChar (c : Char) : Bool :=
  isAlphaGo c || isDigitGo c ||
  c = '-' || c = '.' || c = '_' || c = ':' || c = '~' ||
  c = '!' || c = '$' || c = '&' || c = '\'' || c = '(' || c = ')' ||
  c = '*' || c = '+' || c = ',' || c = ';' || c = '=' || c = '%' || c = '@'

/-- `url.Parse(u).Host` for the `http://`/`https://` URLs `normalizeDomain`
builds (it always passes a scheme-prefixed string): cut fragment, query
and path off the part after the scheme, split userinfo at the last `@`,
and validate.  `none` models `err != nil`. -/
def goURLHost (u : GoStr) : Option GoStr :=
  let rest :=
    if goStartsWith (gs "http://") u then some (u.drop 7)
    else if goStartsWith (gs "https://") u then some (u.drop 8)
    else none
  match rest with
  | none => none
  | some rest =>
    let authority := rest.takeWhile (fun c => c ≠ '/' && c ≠ '?' && c ≠ '#')
    match lastIndexOf '@' authority with
    | none => parseHostGo authority
    | some i =>
      if (authority.take i).all validUserinfoChar then
        parseHostGo (authority.drop (i + 1))
      else none

/-- `net.SplitHostPort`: split at the last colon, with the bracket rules
of the source (`[host]:port`), no validation of the port's digits. -/
def goSplitHostPort (s : GoStr) : Option (GoStr × GoStr) :=
  match lastIndexOf ':' s with
  | none => none
  | some i =>
    if goStartsWith (gs "[") s then
      match firstIndexOf ']' s with
      | none => none
      | some e =>
        if e + 1 = s.length then none
        else if e + 1 = i then
          if goContains (s.drop 1) (gs "[") || goContains (s.drop (e + 1)) (gs "]") then none
          else some ((s.drop 1).take (e - 1), s.drop (i + 1))
        else none
    else
      if goContains (s.take i) (gs ":") then none
      else if goContains s (gs "[") || goContains s (gs "]") then none
      else some (s.take i, s.drop (i + 1))

/-- `normalizeDomain` (`main.go`): trim+lowercase, prepend a scheme when
missing, take the parsed host (falling back to manual scheme stripping on
parse failure or empty host), strip a port, strip one `www.`, strip
`?`/`#` tails, trim. -/
def normalizeDomain (raw : GoStr) : GoStr :=
  let r0 := goToLower (goTrimSpace raw)
  if r0 = [] then []
  else
    let r1 :=
      if goStartsWith (gs "http://") r0 || goStartsWith (gs "https://") r0 then r0
      else gs "http://" ++ r0
    let fallback :=
      (goSplit '/' (goTrimPref (gs "https://") (goTrimPref (gs "http://") (goToLower raw)))).headD []
    let r2 :=
      match goURLHost r1 with
      | some h => if h = [] then fallback else h
      | none => fallback
    let r3 :=
      match goSplitHostPort r2 with
      | some hp => if hp.1 = [] then r2 else hp.1
      | none => r2
    let r4 := goTrimPref (gs "www.") r3
    let r5 := (goSplit '?' r4).headD []
    let r6 := (goSplit '#' r5).headD []
    let r7 := goTrimSpace r6
    if r7 = [] then [] else r7

/-! ## Local rule store (`block_rules` table) and reconciler

`block_rules` rows carry id, domain, category, profile_id, reason,
created_at and is_active; only id, domain, category and is_active take
part in the reconciliation logic modeled here.  The table has no UNIQUE
constraint.  `id` is AUTOINCREMENT, modeled by threading a `nextId`. -/

structure DbRow where
  id : Nat
  domain : GoStr
  category : GoStr
  active : Bool
deriving DecidableEq

def fbCat : GoStr := gs "firebase-sync"

/-- Rows matching a (domain, category) pair. -/
def countRows (db : List DbRow) (d c : GoStr) : Nat :=
  (db.filter (fun r => r.domain == d && r.category == c)).length

/-- `BlockedUrl` (the Go struct also carries ID, AddedAt, AddedBy; the
polling logic reads URL and Status only). -/
structure BlockedUrl where
  url : GoStr
  status : GoStr
deriving DecidableEq

/-- What one candidate Firebase path returns on a cycle: an error, a
JSON map, or a JSON array (the source first decodes as a map and, if the
map is empty, retries as an array). -/
inductive PathData
  | perr
  | pmap (m : List (GoStr × BlockedUrl))
  | parr (a : List (Option BlockedUrl))
deriving DecidableEq

def natDecimal (n : Nat) : GoStr := Nat.toDigits 10 n

/-- The array-to-map conversion of `optimizedPollingMultiplePaths`:
index-keyed `url_i` entries, skipping nils (indices count nils). -/
def convertArray (a : List (Option BlockedUrl)) : List (GoStr × BlockedUrl) :=
  a.enum.filterMap (fun p => p.2.map (fun u => (gs "url_" ++ natDecimal p.1, u)))

/-- The data one path contributes: `none` when it errors or decodes to
nothing non-empty. -/
def effectiveData : PathData → Option (List (GoStr × BlockedUrl))
  | .perr => none
  | .pmap m => if m.isEmpty then none else some m
  | .parr a => let c := convertArray a; if c.isEmpty then none else some c

/-- The path scan of `optimizedPollingMultiplePaths`: try each path in
list order, stop at the first that yields data, returning its index. -/
def scanPaths : List PathData → Option (Nat × List (GoStr × BlockedUrl))
  | [] => none
  | r :: rs =>
    match effectiveData r with
    | some m => some (0, m)
    | none => (scanPaths rs).map (fun p => (p.1 + 1, p.2))

def assocFind (m : List (GoStr × BlockedUrl)) (k : GoStr) : Option BlockedUrl :=
  (m.find? (fun p => p.1 == k)).map Prod.snd

/-- The change check of the polling loops: length mismatch, any added or
modified key (URL or Status), or any deleted key. -/
def urlsChanged (old found : List (GoStr × BlockedUrl)) : Bool :=
  decide (old.length ≠ found.length)
  || found.any (fun p =>
      match assocFind old p.1 with
      | none => true
      | some e => e.url != p.2.url || e.status != p.2.status)
  || old.any (fun p => (assocFind found p.1).isNone)

/-- Extraction of the active domain list from a snapshot: keep `active`
entries, `extractDomain` them, drop empties. -/
def activeUrls (found : List (GoStr × BlockedUrl)) : List GoStr :=
  found.filterMap (fun p =>
    if p.2.status == gs "active" then
      let c := extractDomain p.2.url
      if c = [] then none else some c
    else none)

/-- The database half of `FirebaseService.updateHostsFile`: DELETE all
`firebase-sync` rows, then INSERT one row per (non-empty) url. -/
def fbClearAndInsert (urls : List GoStr) (db : List DbRow) (nextId : Nat) :
    List DbRow × Nat :=
  urls.foldl
    (fun acc u =>
      if u = [] then acc
      else (acc.1 ++ [⟨acc.2, u, fbCat, true⟩], acc.2 + 1))
    (db.filter (fun r => !(r.category == fbCat)), nextId)

/-- `CoreService.syncRulesToHosts`: collect the normalized domains of all
active rows (deduplicated, model order) and hand them to
`UpdateBlockedDomains`. -/
def syncRulesToHosts (e : HostsManager.WriteEnv) (db : List DbRow)
    (hm : HostsManager) (disk : GoStr) :
    Except GoStr Unit × HostsManager × GoStr :=
  let uniq := (db.filter (fun r => r.active)).foldl
    (fun acc r =>
      let nd := normalizeDomain r.domain
      if nd = [] then acc else insertSet acc nd) []
  HostsManager.UpdateBlockedDomains e hm disk uniq

/-- The `UPDATE ... WHERE id = existingID` of `syncToLocalDatabase`: mark
the first (domain, firebase-sync) row active. -/
def setActiveFirst : List DbRow → GoStr → List DbRow
  | [], _ => []
  | r :: rs, dom =>
    if r.domain == dom && r.category == fbCat then { r with active := true } :: rs
    else r :: setActiveFirst rs dom

def existsFbRow (db : List DbRow) (dom : GoStr) : Bool :=
  db.any (fun r => r.domain == dom && r.category == fbCat)

/-- One iteration of `syncToLocalDatabase`'s upsert loop, on the
accumulated (active-domain set, rows, next id). -/
def syncStep (acc : List GoStr × List DbRow × Nat) (p : GoStr × BlockedUrl) :
    List GoStr × List DbRow × Nat :=
  if p.2.status == gs "active" then
    let dom := extractDomain p.2.url
    if dom = [] then acc
    else
      let actives := insertSet acc.1 dom
      if existsFbRow acc.2.1 dom then (actives, setActiveFirst acc.2.1 dom, acc.2.2)
      else (actives, acc.2.1 ++ [⟨acc.2.2, dom, fbCat, true⟩], acc.2.2 + 1)
  else acc

/-- `FirebaseService.syncToLocalDatabase`: upsert (insert-if-absent, else
mark active) a `firebase-sync` row per active domain, then delete the
active `firebase-sync` rows whose domain dropped out of the snapshot. -/
def syncToLocalDatabase (firebaseUrls : List (GoStr × BlockedUrl))
    (db : List DbRow) (nextId : Nat) : List DbRow × Nat :=
  let step := firebaseUrls.foldl syncStep ([], db, nextId)
  (step.2.1.filter
      (fun r => !(r.category == fbCat && r.active && !(step.1.contains r.domain))),
    step.2.2)

/-- The state the polling loop acts on: the last-seen snapshot, the
logged working path, the hosts manager, the on-disk hosts content, and
the rule store. -/
structure SyncState where
  blockedUrls : List (GoStr × BlockedUrl)
  activePath : Option Nat
  hm : HostsManager
  disk : GoStr
  db : List DbRow
  nextId : Nat
deriving DecidableEq

/-- One tick of `optimizedPollingMultiplePaths`: scan the candidate
paths in order; with no data the cycle is a no-op (only the unmodeled
backoff timer changes); with data, run the change check and on change
apply the full update pipeline (`FirebaseService.updateHostsFile`, i.e.
clear+insert `firebase-sync` rows and `syncRulesToHosts`, then
`syncToLocalDatabase`). -/
def pollCycle (e : HostsManager.WriteEnv) (paths : List PathData)
    (st : SyncState) : SyncState :=
  match scanPaths paths with
  | none => st
  | some (i, found) =>
    if urlsChanged st.blockedUrls found then
      let urls := activeUrls found
      let ins := fbClearAndInsert urls st.db st.nextId
      let upd := syncRulesToHosts e ins.1 st.hm st.disk
      let sync := syncToLocalDatabase found ins.1 ins.2
      { blockedUrls := found, activePath := some i, hm := upd.2.1,
        disk := upd.2.2, db := sync.1, nextId := sync.2 }
    else { st with activePath := some i }

/-- `CoreService.handleAddRule`: normalize (400 on empty, modeled as
`none`), INSERT a row (no uniqueness check; `is_active` defaults to 1),
then `AddBlockedDomain` (its error only logged).  The peripheral
`blocklist` sync.Map and the SSE broadcast are not modeled. -/
def handleAddRule (e : HostsManager.WriteEnv) (db : List DbRow) (nextId : Nat)
    (hm : HostsManager) (disk : GoStr) (domain category : GoStr) :
    Option (List DbRow × Nat × HostsManager × GoStr) :=
  let nd := normalizeDomain domain
  if nd = [] then none
  else
    let db' := db ++ [⟨nextId, nd, category, true⟩]
    let r := HostsManager.AddBlockedDomain e hm disk nd
    some (db', nextId + 1, r.2.1, r.2.2)

/-! ## Concrete sample data (for witnesses and counterexamples) -/

/-- An environment in which every write primitive succeeds. -/
def envAll : HostsManager.WriteEnv := ⟨true, true, true, true, true, true, true, true⟩

/-- An environment in which the read succeeds but all five write
strategies fail. -/
def envNone : HostsManager.WriteEnv :=
  ⟨true, false, false, false, false, false, false, false⟩

/-- An environment in which strategies 1–3 fail, robocopy's temp-file
creation fails, and the icacls retry write would succeed: the source
then errors out of `writeHostsWithRobocopy` without attempting the
icacls strategy at all. -/
def envSkip : HostsManager.WriteEnv :=
  ⟨true, false, false, false, false, false, false, true⟩

/-- The two-element key set of the map rebuilt for `S = ["a.com"]`, in
its two possible per-call iteration orders. -/
def ordA1 : List GoStr := [gs "a.com", gs "www.a.com"]

def ordA2 : List GoStr := [gs "www.a.com", gs "a.com"]

def urlA : BlockedUrl := ⟨gs "a.com", gs "active"⟩

def urlB : BlockedUrl := ⟨gs "b.com", gs "active"⟩

/-- Cycle 1: the first candidate path is empty, the second has data. -/
def cycle1Paths : List PathData := [.pmap [], .pmap [(gs "k", urlA)]]

/-- Cycle 2: both candidate paths have data; the previously-working
second path still returns its data. -/
def cycle2Paths : List PathData := [.pmap [(gs "k2", urlB)], .pmap [(gs "k", urlA)]]

def st0 : SyncState := ⟨[], none, ⟨[], []⟩, [], [], 1⟩

/-- First manual `handleAddRule` call on an empty store. -/
def c8Step1 : List DbRow × Nat × HostsManager × GoStr :=
  (handleAddRule envNone [] 1 ⟨[], []⟩ [] (gs "example.com") (gs "manual")).getD
    ([], 0, ⟨[], []⟩, [])

/-- Second, identical `handleAddRule` call on the resulting store. -/
def c8Step2 : List DbRow × Nat × HostsManager × GoStr :=
  (handleAddRule envNone c8Step1.1 c8Step1.2.1 c8Step1.2.2.1 c8Step1.2.2.2
      (gs "example.com") (gs "manual")).getD ([], 0, ⟨[], []⟩, [])

/-! ## Basic lemmas about the Go string primitives -/

theorem goSplit_ne_nil (sep : Char) (s : GoStr) : goSplit sep s ≠ [] := by
  cases s with
  | nil => simp [goSplit]
  | cons c cs =>
    simp only [goSplit]
    cases h : goSplit sep cs with
    | nil => simp
    | cons y ys =>
      by_cases hc : c = sep <;> simp [hc]

theorem not_mem_of_mem_goSplit (sep : Char) (s : GoStr) :
    ∀ l ∈ goSplit sep s, sep ∉ l := by
  induction s with
  | nil => intro l hl; simp [goSplit] at hl; simp [hl]
  | cons c cs ih =>
    intro l hl
    simp only [goSplit] at hl
    cases h : goSplit sep cs with
    | nil => exact absurd h (goSplit_ne_nil sep cs)
    | cons y ys =>
      rw [h] at hl
      by_cases hc : c = sep
      · simp [hc] at hl
        rcases hl with hl | hl | hl
        · simp [hl]
        · have := ih y (by rw [h]; exact List.mem_cons_self _ _)
          rw [hl]; exact this
        · exact ih l (by rw [h]; exact List.mem_cons_of_mem _ hl)
      · simp [hc] at hl
        rcases hl with hl | hl
        · have hy := ih y (by rw [h]; exact List.mem_cons_self _ _)
          rw [hl]
          intro hmem
          rcases List.mem_cons.mp hmem with h1 | h1
          · exact hc h1.symm
          · exact hy h1
        · exact ih l (by rw [h]; exact List.mem_cons_of_mem _ hl)

theorem goSplit_append_sep (sep : Char) (a b : GoStr) (ha : sep ∉ a) :
    goSplit sep (a ++ sep :: b) = a :: goSplit sep b := by
  induction a with
  | nil =>
    simp only [List.nil_append, goSplit]
    cases h : goSplit sep b with
    | nil => exact absurd h (goSplit_ne_nil sep b)
    | cons y ys => simp
  | cons c cs ih =>
    have hc : c ≠ sep := fun h => ha (h ▸ List.mem_cons_self c cs)
    have ha' : sep ∉ cs := fun h => ha (List.mem_cons_of_mem _ h)
    simp only [List.cons_append, goSplit, List.append_eq]
    rw [ih ha']
    simp [hc]

theorem goSplit_no_sep (sep : Char) (a : GoStr) (ha : sep ∉ a) :
    goSplit sep a = [a] := by
  induction a with
  | nil => simp [goSplit]
  | cons c cs ih =>
    have hc : c ≠ sep := fun h => ha (h ▸ List.mem_cons_self c cs)
    have ha' : sep ∉ cs := fun h => ha (List.mem_cons_of_mem _ h)
    simp only [goSplit, ih ha']
    simp [hc]

theorem goSplit_join_append (sep : Char) (ls : List GoStr) (rest : GoStr)
    (h : ∀ l ∈ ls, sep ∉ l) :
    goSplit sep (goJoin sep ls ++ sep :: rest) =
      (if ls = [] then [[]] else ls) ++ goSplit sep rest := by
  induction ls with
  | nil =>
    simp only [goJoin, List.nil_append, goSplit, if_pos rfl]
    cases hr : goSplit sep rest with
    | nil => exact absurd hr (goSplit_ne_nil sep rest)
    | cons y ys => simp
  | cons x xs ih =>
    cases xs with
    | nil =>
      simp only [goJoin]
      rw [goSplit_append_sep sep x rest (h x (List.mem_cons_self _ _))]
      simp
    | cons y ys =>
      have hx : sep ∉ x := h x (List.mem_cons_self _ _)
      have h' : ∀ l ∈ y :: ys, sep ∉ l := fun l hl => h l (List.mem_cons_of_mem _ hl)
      simp only [goJoin, List.append_assoc, List.cons_append]
      rw [goSplit_append_sep sep x _ hx, ih h']
      simp

theorem goContains_iff_mid (h n : GoStr) : goContains h n = true ↔ n <:+: h := by
  induction h with
  | nil => simp [goContains, List.isEmpty_iff]
  | cons c cs ih =>
    simp only [goContains, Bool.or_eq_true, List.isPrefixOf_iff_prefix, ih,
      List.infix_cons_iff]

theorem goContains_false_of_count_lt (h n : GoStr) (c : Char)
    (hlt : h.count c < n.count c) : goContains h n = false := by
  by_contra hcon
  have : goContains h n = true := by
    cases hx : goContains h n
    · exact absurd hx hcon
    · rfl
  rcases (goContains_iff_mid h n).mp this with ⟨p, s, heq⟩
  have : h.count c = p.count c + n.count c + s.count c := by
    rw [← heq]; simp [List.count_append]; ring
  omega

theorem dropWhile_eq_self_of_head (p : Char → Bool) (s : GoStr)
    (h : ∀ c, s.head? = some c → p c = false) : s.dropWhile p = s := by
  cases s with
  | nil => rfl
  | cons c cs =>
    have := h c rfl
    simp [List.dropWhile_cons, this]

theorem goTrimSpace_eq_self (s : GoStr)
    (hh : ∀ c, s.head? = some c → isSpaceGo c = false)
    (hl : ∀ c, s.getLast? = some c → isSpaceGo c = false) : goTrimSpace s = s := by
  unfold goTrimSpace
  rw [dropWhile_eq_self_of_head _ s hh]
  rw [dropWhile_eq_self_of_head _ s.reverse (by intro c hc; exact hl c (by rwa [List.head?_reverse] at hc))]
  exact List.reverse_reverse s

theorem goFieldsAux_word (w rest : GoStr) (cur : GoStr)
    (hw : ∀ c ∈ w, isSpaceGo c = false) :
    goFieldsAux cur (w ++ rest) = goFieldsAux (w.reverse ++ cur) rest := by
  induction w generalizing cur with
  | nil => simp
  | cons c cs ih =>
    have hc : isSpaceGo c = false := hw c (List.mem_cons_self _ _)
    have hw' : ∀ x ∈ cs, isSpaceGo x = false := fun x hx => hw x (List.mem_cons_of_mem _ hx)
    simp only [List.cons_append, goFieldsAux, hc, Bool.false_eq_true, if_false,
      List.append_eq]
    rw [ih (c :: cur) hw']
    simp

theorem goFieldsAux_nil_word (w : GoStr) (h : w ≠ [])
    (hw : ∀ c ∈ w, isSpaceGo c = false) : goFieldsAux [] w = [w] := by
  have hstep := goFieldsAux_word w [] [] hw
  rw [List.append_nil, List.append_nil] at hstep
  rw [hstep]
  simp only [goFieldsAux]
  rw [if_neg (by simp [h])]
  simp

theorem goFields_two_words (w₁ w₂ : GoStr)
    (h1 : w₁ ≠ []) (h2 : w₂ ≠ [])
    (hw1 : ∀ c ∈ w₁, isSpaceGo c = false) (hw2 : ∀ c ∈ w₂, isSpaceGo c = false) :
    goFields (w₁ ++ ' ' :: w₂) = [w₁, w₂] := by
  unfold goFields
  rw [goFieldsAux_word w₁ (' ' :: w₂) [] hw1, List.append_nil]
  have hsp : isSpaceGo ' ' = true := rfl
  have e1 : goFieldsAux w₁.reverse (' ' :: w₂) = w₁.reverse.reverse :: goFieldsAux [] w₂ := by
    simp only [goFieldsAux, hsp, if_true]
    rw [if_neg (by simp [h1])]
  rw [e1, List.reverse_reverse, goFieldsAux_nil_word w₂ h2 hw2]

/-! ## Structural lemmas about the managed section -/

theorem goSplit_cons_sep (sep : Char) (r : GoStr) :
    goSplit sep (sep :: r) = [] :: goSplit sep r := by
  simp only [goSplit]
  cases h : goSplit sep r with
  | nil => exact absurd h (goSplit_ne_nil sep r)
  | cons y ys => simp

theorem goTrimSpace_mid (s : GoStr) : goTrimSpace s <:+: s := by
  unfold goTrimSpace
  have h1 : s.dropWhile isSpaceGo <:+ s := List.dropWhile_suffix _
  have h2 : (s.dropWhile isSpaceGo).reverse.dropWhile isSpaceGo
      <:+ (s.dropWhile isSpaceGo).reverse := List.dropWhile_suffix _
  have h3 : ((s.dropWhile isSpaceGo).reverse.dropWhile isSpaceGo).reverse
      <+: s.dropWhile isSpaceGo := by
    have : ((s.dropWhile isSpaceGo).reverse.dropWhile isSpaceGo).reverse.reverse
        <:+ (s.dropWhile isSpaceGo).reverse := by simpa using h2
    exact List.reverse_suffix.mp this
  exact h3.isInfix.trans h1.isInfix

theorem goContains_trim_le (l n : GoStr)
    (h : goContains l n = false) : goContains (goTrimSpace l) n = false := by
  cases hx : goContains (goTrimSpace l) n
  · rfl
  · exfalso
    have hinf : n <:+: goTrimSpace l := (goContains_iff_mid _ n).mp hx
    have : n <:+: l := hinf.trans (goTrimSpace_mid l)
    rw [(goContains_iff_mid l n).mpr this] at h
    exact Bool.true_eq_false.mp h

namespace HostsManager

theorem mem_cleanLines (b : Bool) (ls : List GoStr) :
    ∀ l ∈ cleanLines b ls,
      l ∈ ls ∧ goContains l startText = false ∧ goContains l endText = false := by
  induction ls generalizing b with
  | nil => intro l hl; simp [cleanLines] at hl
  | cons x xs ih =>
    intro l hl
    simp only [cleanLines] at hl
    by_cases h1 : goContains x startText = true
    · rw [if_pos h1] at hl
      rcases ih true l hl with ⟨hm, hc⟩
      exact ⟨List.mem_cons_of_mem _ hm, hc⟩
    · rw [if_neg h1] at hl
      by_cases h2 : goContains x endText = true
      · rw [if_pos h2] at hl
        rcases ih false l hl with ⟨hm, hc⟩
        exact ⟨List.mem_cons_of_mem _ hm, hc⟩
      · rw [if_neg h2] at hl
        cases b with
        | true =>
          simp only [if_pos rfl] at hl
          rcases ih true l hl with ⟨hm, hc⟩
          exact ⟨List.mem_cons_of_mem _ hm, hc⟩
        | false =>
          simp only [Bool.false_eq_true, if_neg] at hl
          rcases List.mem_cons.mp hl with rfl | hl'
          · exact ⟨List.mem_cons_self _ _,
              Bool.eq_false_iff.mpr h1, Bool.eq_false_iff.mpr h2⟩
          · rcases ih false l hl' with ⟨hm, hc⟩
            exact ⟨List.mem_cons_of_mem _ hm, hc⟩

/-- Every line cleanKidSafeSection keeps is a line of the input split,
so in particular contains no newline. -/
theorem cleanLines_no_newline (content : GoStr) :
    ∀ l ∈ cleanLines false (goSplit '\n' content), '\n' ∉ l := by
  intro l hl
  rcases mem_cleanLines false _ l hl with ⟨hm, _⟩
  exact not_mem_of_mem_goSplit '\n' content l hm

theorem domLine_no_newline (d : GoStr) (hd : ∀ c ∈ d, isSpaceGo c = false) :
    '\n' ∉ domLine d := by
  intro hmem
  unfold domLine at hmem
  rcases List.mem_append.mp hmem with h | h
  · revert h; decide
  · rcases List.mem_cons.mp h with h | h
    · exact absurd h.symm (by decide)
    · have := hd _ h
      simp [isSpaceGo] at this

/-- The line list of the content computed by `updateHostsFile`. -/
theorem lines_updateHostsFileContent (cur : GoStr) (ds : List GoStr)
    (hds : ∀ d ∈ ds, ∀ c ∈ d, isSpaceGo c = false) :
    goSplit '\n' (updateHostsFileContent cur ds) =
      (if cleanLines false (goSplit '\n' cur) = [] then [[]]
        else cleanLines false (goSplit '\n' cur))
      ++ [[], startLine] ++ ds.map domLine ++ [endLine, []] := by
  have hbody : ∀ (ds' : List GoStr), (∀ d ∈ ds', ∀ c ∈ d, isSpaceGo c = false) →
      goSplit '\n' ((ds'.map (fun d => domLine d ++ ['\n'])).flatten ++ endLine ++ ['\n'])
        = ds'.map domLine ++ [endLine, []] := by
    intro ds' h
    induction ds' with
    | nil =>
      simp only [List.map_nil, List.flatten_nil, List.nil_append]
      have : (endLine ++ ['\n'] : GoStr) = endLine ++ '\n' :: [] := rfl
      rw [this, goSplit_append_sep '\n' endLine [] (by decide)]
      simp [goSplit]
    | cons d ds'' ih =>
      have hd : ∀ c ∈ d, isSpaceGo c = false := h d (List.mem_cons_self _ _)
      have h' : ∀ x ∈ ds'', ∀ c ∈ x, isSpaceGo c = false :=
        fun x hx => h x (List.mem_cons_of_mem _ hx)
      simp only [List.map_cons, List.flatten_cons, List.append_assoc, List.cons_append,
        List.nil_append]
      rw [show (domLine d ++ '\n' :: ((ds''.map (fun d => domLine d ++ ['\n'])).flatten ++ (endLine ++ ['\n']))) = domLine d ++ '\n' :: ((ds''.map (fun d => domLine d ++ ['\n'])).flatten ++ endLine ++ ['\n']) by simp [List.append_assoc]]
      rw [goSplit_append_sep '\n' (domLine d) _ (domLine_no_newline d hd)]
      rw [ih h']
  have hcl : ∀ l ∈ cleanLines false (goSplit '\n' cur), '\n' ∉ l :=
    cleanLines_no_newline cur
  have hshape : updateHostsFileContent cur ds =
      goJoin '\n' (cleanLines false (goSplit '\n' cur)) ++ '\n' ::
        ('\n' :: (startLine ++ '\n' ::
          ((ds.map (fun d => domLine d ++ ['\n'])).flatten ++ endLine ++ ['\n']))) := by
    unfold updateHostsFileContent cleanKidSafeSection
    simp [List.append_assoc]
  rw [hshape, goSplit_join_append '\n' _ _ hcl, goSplit_cons_sep,
    goSplit_append_sep '\n' startLine _ (by decide), hbody ds hds]
  simp [List.append_assoc]

theorem count_space_domLine (d : GoStr) (hd : ∀ c ∈ d, isSpaceGo c = false) :
    (domLine d).count ' ' = 1 := by
  have hdz : d.count ' ' = 0 := by
    rw [List.count_eq_zero]
    intro hmem
    have := hd ' ' hmem
    simp [isSpaceGo] at this
  unfold domLine
  rw [List.count_append, List.count_cons]
  simp [hdz, show (BlockedIP.count ' ') = 0 by decide]

theorem domLine_not_startText (d : GoStr) (hd : ∀ c ∈ d, isSpaceGo c = false) :
    goContains (domLine d) startText = false := by
  apply goContains_false_of_count_lt _ _ ' '
  rw [count_space_domLine d hd]
  decide

theorem domLine_not_endText (d : GoStr) (hd : ∀ c ∈ d, isSpaceGo c = false) :
    goContains (domLine d) endText = false := by
  apply goContains_false_of_count_lt _ _ ' '
  rw [count_space_domLine d hd]
  decide

theorem goTrimSpace_domLine (d : GoStr) (hne : d ≠ [])
    (hd : ∀ c ∈ d, isSpaceGo c = false) : goTrimSpace (domLine d) = domLine d := by
  apply goTrimSpace_eq_self
  · intro c hc
    have : (domLine d).head? = some '1' := by
      show (BlockedIP ++ ' ' :: d).head? = some '1'
      rfl
    rw [this] at hc
    cases hc
    decide
  · intro c hc
    cases d with
    | nil => exact absurd rfl hne
    | cons x xs =>
      have h1 : (domLine (x :: xs)).getLast? = (x :: xs).getLast? := by
        unfold domLine
        rw [List.getLast?_append, List.getLast?_cons_cons]
        cases h2 : (x :: xs).getLast? with
        | none => simp at h2
        | some y => simp
      rw [h1] at hc
      exact hd c (List.mem_of_getLast?_eq_some hc)

theorem parseLines_cons_skipF (l : GoStr) (ls : List GoStr)
    (h1 : goContains (goTrimSpace l) startText = false)
    (h2 : goContains (goTrimSpace l) endText = false) :
    parseLines false (l :: ls) = parseLines false ls := by
  simp [parseLines, h1, h2]

theorem parseLines_skip_front (P rest : List GoStr)
    (hP : ∀ l ∈ P, goContains (goTrimSpace l) startText = false ∧
      goContains (goTrimSpace l) endText = false) :
    parseLines false (P ++ rest) = parseLines false rest := by
  induction P with
  | nil => rfl
  | cons x xs ih =>
    rcases hP x (List.mem_cons_self _ _) with ⟨h1, h2⟩
    rw [List.cons_append, parseLines_cons_skipF x _ h1 h2]
    exact ih (fun l hl => hP l (List.mem_cons_of_mem _ hl))

theorem parseLines_domLines (ds : List GoStr)
    (hds : ∀ d ∈ ds, d ≠ [] ∧ ∀ c ∈ d, isSpaceGo c = false) :
    parseLines true (ds.map domLine ++ [endLine, []]) =
      ds.map (fun d => (BlockedIP, d)) := by
  induction ds with
  | nil =>
    simp only [List.map_nil, List.nil_append]
    show parseLines true [endLine, []] = []
    decide
  | cons d ds' ih =>
    rcases hds d (List.mem_cons_self _ _) with ⟨hne, hsp⟩
    have ht : goTrimSpace (domLine d) = domLine d := goTrimSpace_domLine d hne hsp
    have h1 : goContains (goTrimSpace (domLine d)) startText = false := by
      rw [ht]; exact domLine_not_startText d hsp
    have h2 : goContains (goTrimSpace (domLine d)) endText = false := by
      rw [ht]; exact domLine_not_endText d hsp
    have hnonempty : ¬(goTrimSpace (domLine d) = []) := by
      rw [ht]; unfold domLine; simp [BlockedIP, gs]
    have hhash : goStartsWith (gs "#") (goTrimSpace (domLine d)) = false := by
      rw [ht]
      show goStartsWith (gs "#") (BlockedIP ++ ' ' :: d) = false
      rw [show BlockedIP = '1' :: gs "27.0.0.1" from rfl, List.cons_append]
      simp [goStartsWith, List.isPrefixOf, gs]
    have hfields : goFields (goTrimSpace (domLine d)) = [BlockedIP, d] := by
      rw [ht]; exact goFields_two_words BlockedIP d (by decide) hne (by decide) hsp
    simp only [List.map_cons, List.cons_append, parseLines, h1, h2, hnonempty, hhash,
      hfields, Bool.false_eq_true, if_false]
    simp only [eq_self_iff_true, decide_True, decide_False, Bool.true_and, Bool.and_true,
      Bool.and_false, Bool.not_false, if_true, hnonempty, List.append_eq]
    rw [ih (fun x hx => hds x (List.mem_cons_of_mem _ hx))]

theorem sectionLines_cons_skipF (l : GoStr) (ls : List GoStr)
    (h1 : goContains l startText = false) (h2 : goContains l endText = false) :
    sectionLines false (l :: ls) = sectionLines false ls := by
  simp [sectionLines, h1, h2]

theorem sectionLines_skip_front (P rest : List GoStr)
    (hP : ∀ l ∈ P, goContains l startText = false ∧ goContains l endText = false) :
    sectionLines false (P ++ rest) = sectionLines false rest := by
  induction P with
  | nil => rfl
  | cons x xs ih =>
    rcases hP x (List.mem_cons_self _ _) with ⟨h1, h2⟩
    rw [List.cons_append, sectionLines_cons_skipF x _ h1 h2]
    exact ih (fun l hl => hP l (List.mem_cons_of_mem _ hl))

theorem sectionLines_domLines (ds : List GoStr)
    (hds : ∀ d ∈ ds, ∀ c ∈ d, isSpaceGo c = false) :
    sectionLines true (ds.map domLine ++ [endLine, []]) = ds.map domLine := by
  induction ds with
  | nil =>
    simp only [List.map_nil, List.nil_append]
    decide
  | cons d ds' ih =>
    have hsp : ∀ c ∈ d, isSpaceGo c = false := hds d (List.mem_cons_self _ _)
    have h1 := domLine_not_startText d hsp
    have h2 := domLine_not_endText d hsp
    simp only [List.map_cons, List.cons_append, sectionLines, h1, h2,
      Bool.false_eq_true, if_false, if_true, List.append_eq]
    rw [ih (fun x hx => hds x (List.mem_cons_of_mem _ hx))]

/-- The managed-section lines of the computed content are exactly the
domain lines, in emission order, independent of the prior file content. -/
theorem sectionLines_updateContent (cur : GoStr) (ds : List GoStr)
    (hds : ∀ d ∈ ds, ∀ c ∈ d, isSpaceGo c = false) :
    sectionLines false (goSplit '\n' (updateHostsFileContent cur ds)) =
      ds.map domLine := by
  rw [lines_updateHostsFileContent cur ds hds]
  have hP : ∀ l ∈ (if cleanLines false (goSplit '\n' cur) = [] then [[]]
      else cleanLines false (goSplit '\n' cur)),
      goContains l startText = false ∧ goContains l endText = false := by
    intro l hl
    by_cases hc : cleanLines false (goSplit '\n' cur) = []
    · rw [if_pos hc] at hl
      rcases List.mem_singleton.mp hl with rfl
      exact ⟨by decide, by decide⟩
    · rw [if_neg hc] at hl
      exact (mem_cleanLines false _ l hl).2
  rw [List.append_assoc, List.append_assoc, sectionLines_skip_front _ _ hP]
  rw [show ([[], startLine] : List GoStr) ++ (ds.map domLine ++ [endLine, []])
      = [] :: startLine :: (ds.map domLine ++ [endLine, []]) by simp]
  rw [sectionLines_cons_skipF [] _ (by decide) (by decide)]
  rw [show sectionLines false (startLine :: (ds.map domLine ++ [endLine, []]))
      = sectionLines true (ds.map domLine ++ [endLine, []]) by
    simp [sectionLines, show goContains startLine startText = true by decide]]
  rw [sectionLines_domLines ds hds]

/-- The managed section of the computed content is exactly the domain
lines, independent of the prior file content. -/
theorem managedSection_updateContent (cur : GoStr) (ds : List GoStr)
    (hds : ∀ d ∈ ds, ∀ c ∈ d, isSpaceGo c = false) :
    managedSectionContent (updateHostsFileContent cur ds) =
      goJoin '\n' (ds.map domLine) := by
  unfold managedSectionContent
  rw [sectionLines_updateContent cur ds hds]

/-- Parsing the computed content recovers exactly the domain lines as
(BlockedIP, domain) pairs, independent of the prior file content. -/
theorem verifyPairs_updateContent (cur : GoStr) (ds : List GoStr)
    (hds : ∀ d ∈ ds, d ≠ [] ∧ ∀ c ∈ d, isSpaceGo c = false) :
    VerifyHostsFilePairs (updateHostsFileContent cur ds) =
      ds.map (fun d => (BlockedIP, d)) := by
  unfold VerifyHostsFilePairs
  rw [lines_updateHostsFileContent cur ds (fun d hd => (hds d hd).2)]
  have hP : ∀ l ∈ (if cleanLines false (goSplit '\n' cur) = [] then [[]]
      else cleanLines false (goSplit '\n' cur)),
      goContains (goTrimSpace l) startText = false ∧
        goContains (goTrimSpace l) endText = false := by
    intro l hl
    by_cases hc : cleanLines false (goSplit '\n' cur) = []
    · rw [if_pos hc] at hl
      rcases List.mem_singleton.mp hl with rfl
      exact ⟨by decide, by decide⟩
    · rw [if_neg hc] at hl
      rcases (mem_cleanLines false _ l hl).2 with ⟨h1, h2⟩
      exact ⟨goContains_trim_le l _ h1, goContains_trim_le l _ h2⟩
  rw [List.append_assoc, List.append_assoc, parseLines_skip_front _ _ hP]
  rw [show ([[], startLine] : List GoStr) ++ (ds.map domLine ++ [endLine, []])
      = [] :: startLine :: (ds.map domLine ++ [endLine, []]) by simp]
  rw [parseLines_cons_skipF [] _ (by decide) (by decide)]
  rw [show parseLines false (startLine :: (ds.map domLine ++ [endLine, []]))
      = parseLines true (ds.map domLine ++ [endLine, []]) by
    simp [parseLines,
      show goContains (goTrimSpace startLine) startText = true by decide]]
  rw [parseLines_domLines ds hds]

end HostsManager

/-! ## Lemmas about the domain set model -/

theorem mem_insertSet (ds : List GoStr) (d x : GoStr) :
    x ∈ insertSet ds d ↔ x ∈ ds ∨ x = d := by
  unfold insertSet
  by_cases h : d ∈ ds
  · rw [if_pos h]
    constructor
    · exact Or.inl
    · rintro (hx | rfl)
      · exact hx
      · exact h
  · rw [if_neg h]
    simp

theorem mem_addWithWww (ds : List GoStr) (d x : GoStr) :
    x ∈ addWithWww ds d ↔
      x ∈ ds ∨ x = d ∨
        (goStartsWith (gs "www.") d = false ∧ x = gs "www." ++ d) := by
  unfold addWithWww
  by_cases h : goStartsWith (gs "www.") d = true
  · simp [h, mem_insertSet]
  · have hf := Bool.eq_false_iff.mpr h
    simp [hf, mem_insertSet, or_assoc]

theorem mem_updDomains (S : List GoStr) (x : GoStr) :
    x ∈ updDomains S ↔
      ∃ d ∈ S, goToLower (goTrimSpace d) ≠ [] ∧
        (x = goToLower (goTrimSpace d) ∨
          (goStartsWith (gs "www.") (goToLower (goTrimSpace d)) = false ∧
            x = gs "www." ++ goToLower (goTrimSpace d))) := by
  have haux : ∀ (T : List GoStr) (acc : List GoStr),
      x ∈ T.foldl
        (fun acc raw =>
          let d := goToLower (goTrimSpace raw)
          if d = [] then acc else addWithWww acc d) acc ↔
      x ∈ acc ∨ ∃ d ∈ T, goToLower (goTrimSpace d) ≠ [] ∧
        (x = goToLower (goTrimSpace d) ∨
          (goStartsWith (gs "www.") (goToLower (goTrimSpace d)) = false ∧
            x = gs "www." ++ goToLower (goTrimSpace d))) := by
    intro T
    induction T with
    | nil => intro acc; simp
    | cons r T' ih =>
      intro acc
      rw [List.foldl_cons]
      by_cases he : goToLower (goTrimSpace r) = []
      · show x ∈ T'.foldl _
            (if goToLower (goTrimSpace r) = [] then acc
              else addWithWww acc (goToLower (goTrimSpace r))) ↔ _
        rw [if_pos he, ih acc]
        simp [he]
      · show x ∈ T'.foldl _
            (if goToLower (goTrimSpace r) = [] then acc
              else addWithWww acc (goToLower (goTrimSpace r))) ↔ _
        rw [if_neg he, ih (addWithWww acc (goToLower (goTrimSpace r)))]
        rw [mem_addWithWww]
        constructor
        · rintro ((hx | hx | hx) | ⟨d, hd, hne, hcase⟩)
          · exact Or.inl hx
          · exact Or.inr ⟨r, List.mem_cons_self _ _, he, Or.inl hx⟩
          · exact Or.inr ⟨r, List.mem_cons_self _ _, he, Or.inr hx⟩
          · exact Or.inr ⟨d, List.mem_cons_of_mem _ hd, hne, hcase⟩
        · rintro (hx | ⟨d, hd, hne, hcase⟩)
          · exact Or.inl (Or.inl hx)
          · rcases List.mem_cons.mp hd with rfl | hd'
            · rcases hcase with hx | hx
              · exact Or.inl (Or.inr (Or.inl hx))
              · exact Or.inl (Or.inr (Or.inr hx))
            · exact Or.inr ⟨d, hd', hne, hcase⟩
  rw [show updDomains S = S.foldl
      (fun acc raw =>
        let d := goToLower (goTrimSpace raw)
        if d = [] then acc else addWithWww acc d) [] from rfl, haux S []]
  simp

theorem updDomains_wf (S : List GoStr)
    (hS : ∀ d ∈ S, ∀ c ∈ goToLower (goTrimSpace d), isSpaceGo c = false) :
    ∀ x ∈ updDomains S, x ≠ [] ∧ ∀ c ∈ x, isSpaceGo c = false := by
  intro x hx
  rcases (mem_updDomains S x).mp hx with ⟨d, hd, hne, hcase⟩
  have hwf : ∀ c ∈ gs "www.", isSpaceGo c = false := by decide
  rcases hcase with rfl | ⟨_, rfl⟩
  · exact ⟨hne, hS d hd⟩
  · refine ⟨by simp [gs], ?_⟩
    intro c hc
    rcases List.mem_append.mp hc with h | h
    · exact hwf c h
    · exact hS d hd c h

/-! ## The write chain, solved -/

theorem writeHostsFile_eq (e : HostsManager.WriteEnv) (content disk : GoStr) :
    HostsManager.writeHostsFile e content disk =
      if (HostsManager.strategyBits e).any id then (Except.ok (), content)
      else (Except.error HostsManager.allFailedMsg, disk) := by
  rcases e with ⟨ro, dw, tc, rn, ps, rt, rb, ic⟩
  cases dw <;> cases tc <;> cases rn <;> cases ps <;> cases rt <;> cases rb <;>
    cases ic <;>
    simp [HostsManager.writeHostsFile, HostsManager.writeHostsWithPowerShell,
      HostsManager.writeHostsWithRobocopy, HostsManager.writeHostsWithIcacls,
      HostsManager.strategyBits]

/-! ## Lemmas about the path scan and the rule store -/

theorem scanPaths_eq_none (paths : List PathData)
    (h : ∀ r ∈ paths, effectiveData r = none) : scanPaths paths = none := by
  induction paths with
  | nil => rfl
  | cons r rs ih =>
    unfold scanPaths
    rw [h r (List.mem_cons_self _ _), ih (fun x hx => h x (List.mem_cons_of_mem _ hx))]
    rfl

theorem scanPaths_first (paths : List PathData) (i : Nat)
    (m : List (GoStr × BlockedUrl)) (h : scanPaths paths = some (i, m)) :
    ∃ r, paths[i]? = some r ∧ effectiveData r = some m ∧
      ∀ j r', j < i → paths[j]? = some r' → effectiveData r' = none := by
  induction paths generalizing i with
  | nil => simp [scanPaths] at h
  | cons r rs ih =>
    unfold scanPaths at h
    cases he : effectiveData r with
    | some m' =>
      rw [he] at h
      have h0 : (0, m') = (i, m) := Option.some.inj h
      rw [Prod.mk.injEq] at h0
      obtain ⟨hi, hm⟩ := h0
      subst hi; subst hm
      exact ⟨r, by simp, he, fun j r' hj _ => absurd hj (Nat.not_lt_zero j)⟩
    | none =>
      rw [he] at h
      rcases Option.map_eq_some'.mp h with ⟨p, hp, hpe⟩
      have hi : i = p.1 + 1 := by
        have := congrArg Prod.fst hpe; simpa using this.symm
      have hm : m = p.2 := by
        have := congrArg Prod.snd hpe; simpa using this.symm
      subst hi; subst hm
      rcases ih p.1 hp with ⟨r', hget, heff, hmin⟩
      refine ⟨r', by simpa using hget, heff, ?_⟩
      intro j r'' hj hget'
      cases j with
      | zero =>
        have hrr : r = r'' := by simpa using hget'
        exact hrr ▸ he
      | succ j' =>
        exact hmin j' r'' (Nat.lt_of_succ_lt_succ hj) (by simpa using hget')

theorem countRows_append (db1 db2 : List DbRow) (d c : GoStr) :
    countRows (db1 ++ db2) d c = countRows db1 d c + countRows db2 d c := by
  simp [countRows, List.filter_append]

theorem countRows_setActiveFirst (db : List DbRow) (dom d c : GoStr) :
    countRows (setActiveFirst db dom) d c = countRows db d c := by
  induction db with
  | nil => rfl
  | cons r rs ih =>
    unfold setActiveFirst
    by_cases hr : (r.domain == dom && r.category == fbCat) = true
    · rw [if_pos hr]
      unfold countRows
      rw [List.filter_cons, List.filter_cons]
      by_cases hp : (r.domain == d && r.category == c) = true
      · simp [hp]
      · simp [hp]
    · rw [if_neg hr]
      unfold countRows at ih ⊢
      rw [List.filter_cons, List.filter_cons]
      by_cases hp : (r.domain == d && r.category == c) = true
      · simp [hp, ih]
      · simp [hp, ih]

theorem existsFbRow_false_count (db : List DbRow) (dom : GoStr)
    (h : existsFbRow db dom = false) : countRows db dom fbCat = 0 := by
  unfold existsFbRow at h
  unfold countRows
  rw [List.length_eq_zero, List.filter_eq_nil_iff]
  intro r hr
  have := List.any_eq_false.mp h r hr
  simpa using this

theorem countRows_singleton_le (r : DbRow) (d c : GoStr) :
    countRows [r] d c ≤ 1 := by
  unfold countRows
  rw [List.filter_cons]
  by_cases hp : (r.domain == d && r.category == c) = true
  · simp [hp]
  · simp [hp]

theorem syncStep_preserves (acc : List GoStr × List DbRow × Nat)
    (p : GoStr × BlockedUrl) (hinv : ∀ d c, countRows acc.2.1 d c ≤ 1) :
    ∀ d c, countRows (syncStep acc p).2.1 d c ≤ 1 := by
  intro d c
  unfold syncStep
  by_cases hs : (p.2.status == gs "active") = true
  · rw [if_pos hs]
    by_cases hd : extractDomain p.2.url = []
    · rw [if_pos hd]; exact hinv d c
    · rw [if_neg hd]
      show countRows
          (if existsFbRow acc.2.1 (extractDomain p.2.url) = true then
            (insertSet acc.1 (extractDomain p.2.url),
              setActiveFirst acc.2.1 (extractDomain p.2.url), acc.2.2)
          else
            (insertSet acc.1 (extractDomain p.2.url),
              acc.2.1 ++ [⟨acc.2.2, extractDomain p.2.url, fbCat, true⟩],
              acc.2.2 + 1)).2.1 d c ≤ 1
      by_cases he : existsFbRow acc.2.1 (extractDomain p.2.url) = true
      · rw [if_pos he]
        show countRows (setActiveFirst acc.2.1 (extractDomain p.2.url)) d c ≤ 1
        rw [countRows_setActiveFirst]
        exact hinv d c
      · rw [if_neg he]
        show countRows
          (acc.2.1 ++ [⟨acc.2.2, extractDomain p.2.url, fbCat, true⟩]) d c ≤ 1
        rw [countRows_append]
        by_cases hm : (extractDomain p.2.url == d &&
            (fbCat : GoStr) == c) = true
        · have hde : extractDomain p.2.url = d := by
            have := (Bool.and_eq_true _ _).mp hm
            exact eq_of_beq this.1
          have hce : (fbCat : GoStr) = c := by
            have := (Bool.and_eq_true _ _).mp hm
            exact eq_of_beq this.2
          have h0 : countRows acc.2.1 d c = 0 := by
            rw [← hde, ← hce]
            exact existsFbRow_false_count _ _ (Bool.eq_false_iff.mpr he)
          rw [h0]
          simpa using countRows_singleton_le _ d c
        · have h1 : countRows [(⟨acc.2.2, extractDomain p.2.url, fbCat, true⟩ : DbRow)] d c = 0 := by
            unfold countRows
            rw [List.filter_cons]
            simp only [show ((⟨acc.2.2, extractDomain p.2.url, fbCat, true⟩ : DbRow).domain ==
              d && (⟨acc.2.2, extractDomain p.2.url, fbCat, true⟩ : DbRow).category == c)
              = (extractDomain p.2.url == d && (fbCat : GoStr) == c) from rfl, hm]
            simp
          rw [h1]
          simpa using hinv d c
  · rw [if_neg hs]; exact hinv d c

theorem countRows_filter_le (db : List DbRow) (p : DbRow → Bool) (d c : GoStr) :
    countRows (db.filter p) d c ≤ countRows db d c := by
  unfold countRows
  exact (List.Sublist.filter _ (List.filter_sublist db)).length_le

/-- The upsert/prune reconciliation never breaks the at-most-one-row-per
(domain, category) property. -/
theorem syncToLocalDatabase_preserves (urls : List (GoStr × BlockedUrl))
    (db : List DbRow) (nid : Nat) (hinv : ∀ d c, countRows db d c ≤ 1) :
    ∀ d c, countRows (syncToLocalDatabase urls db nid).1 d c ≤ 1 := by
  have hfold : ∀ (us : List (GoStr × BlockedUrl)) (acc : List GoStr × List DbRow × Nat),
      (∀ d c, countRows acc.2.1 d c ≤ 1) →
      ∀ d c, countRows (us.foldl syncStep acc).2.1 d c ≤ 1 := by
    intro us
    induction us with
    | nil => intro acc hacc; exact hacc
    | cons u us' ih =>
      intro acc hacc
      rw [List.foldl_cons]
      exact ih (syncStep acc u) (syncStep_preserves acc u hacc)
  intro d c
  unfold syncToLocalDatabase
  exact le_trans (countRows_filter_le _ _ d c) (hfold urls ([], db, nid) hinv d c)

/-! ## The claims -/

/-- C1 counterexample: the claim says an error comes back only when all
five strategies fail — so a succeeding strategy 5 with strategies 1–4
forced to fail must yield success.  But when strategies 1–3 fail and
robocopy's temp-file creation fails, the source returns that error
without attempting the icacls strategy at all: in `envSkip` the icacls
retry would succeed (second conjunct), yet the chain returns the
all-failed error with the disk untouched (first conjunct). -/
theorem claim_C1_counterexample :
    HostsManager.writeHostsFile envSkip (gs "new content") (gs "old disk") =
      (Except.error HostsManager.allFailedMsg, gs "old disk") ∧
    HostsManager.writeHostsWithIcacls envSkip (gs "new content") (gs "old disk") =
      (Except.ok (), gs "new content") :=
  ⟨rfl, rfl⟩

/-- C1 amended: `writeHostsFile` tries the strategies in order (direct
write, temp-file-then-rename, elevated PowerShell, robocopy, icacls
permission-reset) and stops at the first that succeeds; the icacls
strategy, however, is attempted only when robocopy's temp file could be
created — a temp-file failure aborts the chain with strategy 5 untried.
The equation is the complete characterisation: success iff some
effective strategy bit of the ordered list is set (strategies 4 and 5
both gated on the temp file), with the content written; otherwise the
fixed "all strategies failed" error with the on-disk content unchanged
from before the call. -/
theorem claim_C1_writer_fallback (e : HostsManager.WriteEnv) (content disk : GoStr) :
    HostsManager.writeHostsFile e content disk =
      if (HostsManager.strategyBits e).any id then (Except.ok (), content)
      else (Except.error HostsManager.allFailedMsg, disk) :=
  writeHostsFile_eq e content disk

/-- C2: on a polling cycle where every candidate path errors or returns
empty data, the reconciler performs no update at all: the whole sync
state (blocked-url snapshot, hosts manager's domain set, on-disk hosts
content, rule store) is unchanged. -/
theorem claim_C2_no_data_no_clear (e : HostsManager.WriteEnv)
    (paths : List PathData) (st : SyncState)
    (h : ∀ r ∈ paths, effectiveData r = none) :
    pollCycle e paths st = st := by
  unfold pollCycle
  rw [scanPaths_eq_none paths h]

/-- Witness for C2 at a concrete cycle: one erroring path and one
empty-map path, against a concrete state. -/
theorem claim_C2_witness :
    (∀ r ∈ [PathData.perr, PathData.pmap []], effectiveData r = none) ∧
      pollCycle envNone [PathData.perr, PathData.pmap []] st0 = st0 :=
  ⟨by decide, claim_C2_no_data_no_clear envNone _ st0 (by decide)⟩

/-- C5 counterexample: the claim says the normalizer maps
`"not a domain"` to the empty string (and in general returns empty for
space-containing results), but `normalizeDomain` has no space check and
returns `"not a domain"` unchanged; also `extractDomain` (which does
have the space check) does not lowercase, mapping `"EXAMPLE.COM:8080"`
to `"EXAMPLE.COM"`, not `"example.com"`. -/
theorem claim_C5_counterexample :
    normalizeDomain (gs "not a domain") = gs "not a domain" ∧
      gs "not a domain" ≠ ([] : GoStr) ∧
      extractDomain (gs "EXAMPLE.COM:8080") = gs "EXAMPLE.COM" := by
  decide

/-- C5 amended: `normalizeDomain` maps the first three table inputs as
claimed but performs no space check, returning `"not a domain"`
unchanged; `extractDomain` implements the empty-or-space rule (returning
empty for `"not a domain"`, `"  "`, and in general never returning a
space-containing string) but does not lowercase, so it maps
`"EXAMPLE.COM:8080"` to `"EXAMPLE.COM"`. -/
theorem claim_C5_amended :
    normalizeDomain (gs "https://www.Example.com/path?a=1") = gs "example.com" ∧
    normalizeDomain (gs "EXAMPLE.COM:8080") = gs "example.com" ∧
    normalizeDomain (gs "  ") = [] ∧
    normalizeDomain (gs "not a domain") = gs "not a domain" ∧
    extractDomain (gs "https://www.Example.com/path?a=1") = gs "Example.com" ∧
    extractDomain (gs "EXAMPLE.COM:8080") = gs "EXAMPLE.COM" ∧
    extractDomain (gs "  ") = [] ∧
    extractDomain (gs "not a domain") = [] ∧
    (∀ u : GoStr, extractDomain u = [] ∨ goContains (extractDomain u) (gs " ") = false) := by
  have haux : ∀ x : GoStr,
      (if x = [] || goContains x (gs " ") then ([] : GoStr) else x) = ([] : GoStr) ∨
        goContains (if x = [] || goContains x (gs " ") then ([] : GoStr) else x)
          (gs " ") = false := by
    intro x
    by_cases h1 : x = []
    · simp [h1]
    · by_cases h2 : goContains x (gs " ") = true
      · simp [h1, h2]
      · simp [h1, h2]
  refine ⟨by decide, by decide, by decide, by decide, by decide, by decide,
    by decide, by decide, ?_⟩
  intro u
  exact haux _

/-- C6 counterexample: the normalizer strips only one `"www."` prefix,
so it is not idempotent: `normalizeDomain "www.www.example.com"` is
`"www.example.com"`, which normalizes again to `"example.com"`. -/
theorem claim_C6_counterexample :
    normalizeDomain (normalizeDomain (gs "www.www.example.com")) ≠
      normalizeDomain (gs "www.www.example.com") := by
  decide

/-- C6 amended: idempotence holds on the spec's normalizer-table inputs
(for both normalizers), but fails in general: when the normalized form
itself still begins with `"www."` — e.g. for `"www.www.example.com"` — a
second application strips another `"www."` prefix. -/
theorem claim_C6_amended :
    normalizeDomain (normalizeDomain (gs "https://www.Example.com/path?a=1")) =
      normalizeDomain (gs "https://www.Example.com/path?a=1") ∧
    normalizeDomain (normalizeDomain (gs "EXAMPLE.COM:8080")) =
      normalizeDomain (gs "EXAMPLE.COM:8080") ∧
    normalizeDomain (normalizeDomain (gs "  ")) = normalizeDomain (gs "  ") ∧
    normalizeDomain (normalizeDomain (gs "not a domain")) =
      normalizeDomain (gs "not a domain") ∧
    extractDomain (extractDomain (gs "https://www.Example.com/path?a=1")) =
      extractDomain (gs "https://www.Example.com/path?a=1") ∧
    extractDomain (extractDomain (gs "EXAMPLE.COM:8080")) =
      extractDomain (gs "EXAMPLE.COM:8080") ∧
    extractDomain (extractDomain (gs "  ")) = extractDomain (gs "  ") ∧
    extractDomain (extractDomain (gs "not a domain")) =
      extractDomain (gs "not a domain") ∧
    normalizeDomain (gs "www.www.example.com") = gs "www.example.com" ∧
    normalizeDomain (gs "www.example.com") = gs "example.com" ∧
    extractDomain (extractDomain (gs "www.www.example.com")) ≠
      extractDomain (gs "www.www.example.com") := by
  decide

/-- C3: for any hosts content and any set `S` of normalized domains
(non-empty, whitespace-free, already lowercased-and-trimmed), the
desired content computed for `S` (whose domain map is `S` with the
`www.` variants added) parses back to exactly one
`(BlockedIP, domain)` pair per map entry; the set of parsed pairs is
exactly `S` plus the `www.`-prefixed variant of each non-`www` domain of
`S`, each with the fixed loopback IP; and the computed content's line
list is the non-managed lines of the original (the `cleanLines` state
machine's output, in original relative order, with a `[[]]` placeholder
when none survive) followed by the fresh managed block. -/
theorem claim_C3_section_roundtrip (cur : GoStr) (S : List GoStr)
    (hne : ∀ d ∈ S, d ≠ [])
    (hnorm : ∀ d ∈ S, goToLower (goTrimSpace d) = d)
    (hsp : ∀ d ∈ S, ∀ c ∈ d, isSpaceGo c = false) :
    HostsManager.VerifyHostsFilePairs
        (HostsManager.updateHostsFileContent cur (updDomains S))
      = (updDomains S).map (fun d => (BlockedIP, d)) ∧
    (∀ p : GoStr × GoStr,
      p ∈ HostsManager.VerifyHostsFilePairs
          (HostsManager.updateHostsFileContent cur (updDomains S)) ↔
        p.1 = BlockedIP ∧
          (p.2 ∈ S ∨ ∃ d ∈ S, goStartsWith (gs "www.") d = false ∧
            p.2 = gs "www." ++ d)) ∧
    goSplit '\n' (HostsManager.updateHostsFileContent cur (updDomains S)) =
      (if HostsManager.cleanLines false (goSplit '\n' cur) = [] then [[]]
        else HostsManager.cleanLines false (goSplit '\n' cur))
      ++ [[], startLine] ++ (updDomains S).map HostsManager.domLine
      ++ [endLine, []] := by
  have hwfS : ∀ d ∈ updDomains S, d ≠ [] ∧ ∀ c ∈ d, isSpaceGo c = false := by
    apply updDomains_wf
    intro d hd
    rw [hnorm d hd]
    exact hsp d hd
  have hpairs := HostsManager.verifyPairs_updateContent cur (updDomains S) hwfS
  have hmem : ∀ x : GoStr, x ∈ updDomains S ↔
      x ∈ S ∨ ∃ d ∈ S, goStartsWith (gs "www.") d = false ∧ x = gs "www." ++ d := by
    intro x
    rw [mem_updDomains]
    constructor
    · rintro ⟨d, hd, hne', hcase⟩
      rw [hnorm d hd] at hcase
      rcases hcase with rfl | ⟨hpf, rfl⟩
      · exact Or.inl hd
      · exact Or.inr ⟨d, hd, hpf, rfl⟩
    · rintro (hx | ⟨d, hd, hpf, rfl⟩)
      · refine ⟨x, hx, ?_, Or.inl (hnorm x hx).symm⟩
        rw [hnorm x hx]; exact hne x hx
      · refine ⟨d, hd, ?_, Or.inr ⟨?_, ?_⟩⟩
        · rw [hnorm d hd]; exact hne d hd
        · rw [hnorm d hd]; exact hpf
        · rw [hnorm d hd]
  refine ⟨hpairs, ?_, HostsManager.lines_updateHostsFileContent cur (updDomains S)
    (fun d hd => (hwfS d hd).2)⟩
  intro p
  rw [hpairs]
  simp only [List.mem_map]
  constructor
  · rintro ⟨d, hd, rfl⟩
    exact ⟨rfl, (hmem d).mp hd⟩
  · rintro ⟨h1, h2⟩
    exact ⟨p.2, (hmem p.2).mpr h2, Prod.ext h1.symm rfl⟩

/-- Witness for C3 on a concrete content and domain set. -/
theorem claim_C3_witness :
    ((∀ d ∈ [gs "a.com"], d ≠ []) ∧
      (∀ d ∈ [gs "a.com"], goToLower (goTrimSpace d) = d) ∧
      (∀ d ∈ [gs "a.com"], ∀ c ∈ d, isSpaceGo c = false)) ∧
    HostsManager.VerifyHostsFilePairs
        (HostsManager.updateHostsFileContent (gs "x y\n") (updDomains [gs "a.com"]))
      = (updDomains [gs "a.com"]).map (fun d => (BlockedIP, d)) :=
  ⟨⟨by decide, by decide, by decide⟩,
    (claim_C3_section_roundtrip (gs "x y\n") [gs "a.com"]
      (by decide) (by decide) (by decide)).1⟩

/-- C4 counterexample: byte-identity of the managed section across two
`replaceAll(S)` calls is not a property of the program.  Go randomizes
map iteration independently per call, so the two calls may emit the
section lines of the same rebuilt map in different orders: `ordA1` and
`ordA2` are both permutations of the key set for `S = ["a.com"]` (first
two conjuncts), and a first application iterating in `ordA1` followed by
a second iterating in `ordA2` produces a byte-different managed
section. -/
theorem claim_C4_counterexample :
    ordA1.Perm (updDomains [gs "a.com"]) ∧
    ordA2.Perm (updDomains [gs "a.com"]) ∧
    HostsManager.managedSectionContent
        (HostsManager.UpdateBlockedDomainsWithOrder envAll
          (HostsManager.UpdateBlockedDomainsWithOrder envAll ⟨[], []⟩ []
            [gs "a.com"] ordA1).2.1
          (HostsManager.UpdateBlockedDomainsWithOrder envAll ⟨[], []⟩ []
            [gs "a.com"] ordA1).2.2
          [gs "a.com"] ordA2).2.2
      ≠ HostsManager.managedSectionContent
          (HostsManager.UpdateBlockedDomainsWithOrder envAll ⟨[], []⟩ []
            [gs "a.com"] ordA1).2.2 := by
  decide

/-- C4 amended: two successive `replaceAll(S)` calls (successful writes)
produce managed sections that are identical as sets of lines, whatever
map iteration order each call uses: each call's section is exactly one
`"127.0.0.1 d"` line per key of the rebuilt map, in that call's order,
so the two line lists are permutations of one another.  (Byte-identity
holds exactly when the two iteration orders coincide, as they do in the
deterministic model's `UpdateBlockedDomains`.) -/
theorem claim_C4_replaceAll_idempotent (e : HostsManager.WriteEnv)
    (hm : HostsManager) (disk : GoStr) (S ord₁ ord₂ : List GoStr)
    (hwrite : (HostsManager.strategyBits e).any id = true)
    (hS : ∀ d ∈ S, ∀ c ∈ goToLower (goTrimSpace d), isSpaceGo c = false)
    (h1 : ord₁.Perm (updDomains S)) (h2 : ord₂.Perm (updDomains S)) :
    HostsManager.sectionLines false (goSplit '\n'
        (HostsManager.UpdateBlockedDomainsWithOrder e hm disk S ord₁).2.2)
      = ord₁.map HostsManager.domLine ∧
    HostsManager.sectionLines false (goSplit '\n'
        (HostsManager.UpdateBlockedDomainsWithOrder e
          (HostsManager.UpdateBlockedDomainsWithOrder e hm disk S ord₁).2.1
          (HostsManager.UpdateBlockedDomainsWithOrder e hm disk S ord₁).2.2
          S ord₂).2.2)
      = ord₂.map HostsManager.domLine ∧
    (HostsManager.sectionLines false (goSplit '\n'
        (HostsManager.UpdateBlockedDomainsWithOrder e
          (HostsManager.UpdateBlockedDomainsWithOrder e hm disk S ord₁).2.1
          (HostsManager.UpdateBlockedDomainsWithOrder e hm disk S ord₁).2.2
          S ord₂).2.2)).Perm
      (HostsManager.sectionLines false (goSplit '\n'
        (HostsManager.UpdateBlockedDomainsWithOrder e hm disk S ord₁).2.2)) := by
  have hwfU : ∀ d ∈ updDomains S, ∀ c ∈ d, isSpaceGo c = false :=
    fun d hd => (updDomains_wf S hS d hd).2
  have hwf1 : ∀ d ∈ ord₁, ∀ c ∈ d, isSpaceGo c = false :=
    fun d hd => hwfU d (h1.mem_iff.mp hd)
  have hwf2 : ∀ d ∈ ord₂, ∀ c ∈ d, isSpaceGo c = false :=
    fun d hd => hwfU d (h2.mem_iff.mp hd)
  have e1 : HostsManager.sectionLines false (goSplit '\n'
      (HostsManager.UpdateBlockedDomainsWithOrder e hm disk S ord₁).2.2)
      = ord₁.map HostsManager.domLine := by
    simp only [HostsManager.UpdateBlockedDomainsWithOrder, writeHostsFile_eq,
      hwrite, if_true]
    exact HostsManager.sectionLines_updateContent _ ord₁ hwf1
  have e2 : HostsManager.sectionLines false (goSplit '\n'
      (HostsManager.UpdateBlockedDomainsWithOrder e
        (HostsManager.UpdateBlockedDomainsWithOrder e hm disk S ord₁).2.1
        (HostsManager.UpdateBlockedDomainsWithOrder e hm disk S ord₁).2.2
        S ord₂).2.2)
      = ord₂.map HostsManager.domLine := by
    simp only [HostsManager.UpdateBlockedDomainsWithOrder, writeHostsFile_eq,
      hwrite, if_true]
    exact HostsManager.sectionLines_updateContent _ ord₂ hwf2
  refine ⟨e1, e2, ?_⟩
  rw [e1, e2]
  exact (h2.trans h1.symm).map HostsManager.domLine

/-- Witness for C4's amended claim at a concrete environment, state,
domain set and pair of iteration orders. -/
theorem claim_C4_witness :
    ((HostsManager.strategyBits envAll).any id = true ∧
      (∀ d ∈ [gs "a.com"], ∀ c ∈ goToLower (goTrimSpace d), isSpaceGo c = false) ∧
      ordA1.Perm (updDomains [gs "a.com"]) ∧
      ordA2.Perm (updDomains [gs "a.com"])) ∧
    (HostsManager.sectionLines false (goSplit '\n'
        (HostsManager.UpdateBlockedDomainsWithOrder envAll
          (HostsManager.UpdateBlockedDomainsWithOrder envAll ⟨[], []⟩ []
            [gs "a.com"] ordA1).2.1
          (HostsManager.UpdateBlockedDomainsWithOrder envAll ⟨[], []⟩ []
            [gs "a.com"] ordA1).2.2
          [gs "a.com"] ordA2).2.2)).Perm
      (HostsManager.sectionLines false (goSplit '\n'
        (HostsManager.UpdateBlockedDomainsWithOrder envAll ⟨[], []⟩ []
          [gs "a.com"] ordA1).2.2)) :=
  ⟨⟨by decide, by decide, by decide, by decide⟩,
    (claim_C4_replaceAll_idempotent envAll ⟨[], []⟩ [] [gs "a.com"] ordA1 ordA2
      (by decide) (by decide) (by decide) (by decide)).2.2⟩

/-- C7 counterexample: after cycle 1 finds data at candidate index 1
(`activePath = 1`), cycle 2 — in which path 1 still returns its data —
adopts the data of path 0 instead: the previously-working path is *not*
checked first; the scan order is the fixed candidate order. -/
theorem claim_C7_counterexample :
    (pollCycle envAll cycle1Paths st0).activePath = some 1 ∧
    effectiveData (cycle2Paths.getD 1 PathData.perr) = some [(gs "k", urlA)] ∧
    (pollCycle envAll cycle2Paths (pollCycle envAll cycle1Paths st0)).blockedUrls
      = [(gs "k2", urlB)] ∧
    ([(gs "k2", urlB)] : List (GoStr × BlockedUrl)) ≠ [(gs "k", urlA)] := by
  decide

/-- C7 amended: the polling loop gives the previously-working path no
precedence: every cycle scans the full candidate list in its fixed order
and uses the first path returning non-empty data (`scanPaths`), and the
remembered `activePath` influences nothing but itself (logging): all
data components of the post-cycle state are independent of it.  The
full-list property of the claim holds in this form: every earlier path
is consulted (and found empty) before a later path's data is used. -/
theorem claim_C7_amended (e : HostsManager.WriteEnv) (paths : List PathData)
    (st : SyncState) (ap : Option Nat) (i : Nat)
    (m : List (GoStr × BlockedUrl)) :
    ((pollCycle e paths { st with activePath := ap }).blockedUrls =
        (pollCycle e paths st).blockedUrls ∧
      (pollCycle e paths { st with activePath := ap }).hm =
        (pollCycle e paths st).hm ∧
      (pollCycle e paths { st with activePath := ap }).disk =
        (pollCycle e paths st).disk ∧
      (pollCycle e paths { st with activePath := ap }).db =
        (pollCycle e paths st).db) ∧
    (scanPaths paths = some (i, m) →
      ∃ r, paths[i]? = some r ∧ effectiveData r = some m ∧
        ∀ j r', j < i → paths[j]? = some r' → effectiveData r' = none) := by
  constructor
  · cases hsc : scanPaths paths with
    | none => simp [pollCycle, hsc]
    | some p =>
      obtain ⟨i', found⟩ := p
      by_cases hch : urlsChanged st.blockedUrls found = true
      · simp [pollCycle, hsc, hch]
      · simp [pollCycle, hsc, hch]
  · exact scanPaths_first paths i m

/-- Witness for C7's amended claim at cycle 2's concrete path data. -/
theorem claim_C7_witness :
    scanPaths cycle2Paths = some (0, [(gs "k2", urlB)]) ∧
    ∃ r, cycle2Paths[0]? = some r ∧ effectiveData r = some [(gs "k2", urlB)] ∧
      ∀ j r', j < 0 → cycle2Paths[j]? = some r' → effectiveData r' = none :=
  ⟨by decide,
    (claim_C7_amended envAll cycle2Paths st0 none 0 [(gs "k2", urlB)]).2 (by decide)⟩

/-- C8 counterexample: the `block_rules` schema has no UNIQUE constraint
and `handleAddRule` does a plain INSERT, so two identical manual
additions leave two rows for the same (domain, category) pair. -/
theorem claim_C8_counterexample :
    countRows c8Step1.1 (gs "example.com") (gs "manual") = 1 ∧
    countRows c8Step2.1 (gs "example.com") (gs "manual") = 2 := by
  decide

/-- C8 amended: the reconciler's upsert (`syncToLocalDatabase`,
insert-if-absent else ensure-active, then prune) preserves the
at-most-one-row-per-(domain, category) property; manual rule addition
(`handleAddRule`), however, performs an unconditional INSERT and can
duplicate a pair, as the counterexample shows. -/
theorem claim_C8_amended (urls : List (GoStr × BlockedUrl))
    (db : List DbRow) (nid : Nat)
    (hinv : ∀ d c, countRows db d c ≤ 1) :
    ∀ d c, countRows (syncToLocalDatabase urls db nid).1 d c ≤ 1 :=
  syncToLocalDatabase_preserves urls db nid hinv

/-- Witness for C8's amended claim on a concrete snapshot and store. -/
theorem claim_C8_witness :
    (∀ d c, countRows [] d c ≤ 1) ∧
    countRows (syncToLocalDatabase [(gs "k", urlA)] [] 1).1
      (gs "a.com") fbCat ≤ 1 :=
  ⟨by intro d c; simp [countRows],
    claim_C8_amended [(gs "k", urlA)] [] 1
      (by intro d c; simp [countRows]) (gs "a.com") fbCat⟩

/-- C9: `AddBlockedDomain`, `RemoveBlockedDomain` and
`UpdateBlockedDomains` mutate the in-memory set before writing; when all
write strategies fail the call returns the error but the mutation
stands and the disk is untouched, so `IsBlocked` (and the domain list)
reflect the new set while the on-disk hosts file does not. -/
theorem claim_C9_mutation_survives_write_failure (e : HostsManager.WriteEnv)
    (hm : HostsManager) (disk : GoStr) (dom : GoStr) (S : List GoStr)
    (hfail : (HostsManager.strategyBits e).any id = false)
    (hne : goToLower (goTrimSpace dom) ≠ []) :
    ((HostsManager.AddBlockedDomain e hm disk dom).1 =
        Except.error HostsManager.allFailedMsg ∧
      (HostsManager.AddBlockedDomain e hm disk dom).2.2 = disk ∧
      HostsManager.IsBlocked (HostsManager.AddBlockedDomain e hm disk dom).2.1 dom
        = true ∧
      (HostsManager.AddBlockedDomain e hm disk dom).2.1.blockedDomains =
        addWithWww hm.blockedDomains (goToLower (goTrimSpace dom))) ∧
    ((HostsManager.RemoveBlockedDomain e hm disk dom).1 =
        Except.error HostsManager.allFailedMsg ∧
      (HostsManager.RemoveBlockedDomain e hm disk dom).2.2 = disk ∧
      HostsManager.IsBlocked (HostsManager.RemoveBlockedDomain e hm disk dom).2.1 dom
        = false) ∧
    ((HostsManager.UpdateBlockedDomains e hm disk S).1 =
        Except.error HostsManager.allFailedMsg ∧
      (HostsManager.UpdateBlockedDomains e hm disk S).2.2 = disk ∧
      (HostsManager.UpdateBlockedDomains e hm disk S).2.1.blockedDomains =
        updDomains S) := by
  refine ⟨?_, ?_, ?_⟩
  · simp [HostsManager.AddBlockedDomain, hne, HostsManager.updateHostsFile,
      writeHostsFile_eq, hfail, HostsManager.IsBlocked, mem_addWithWww]
  · simp [HostsManager.RemoveBlockedDomain, HostsManager.updateHostsFile,
      writeHostsFile_eq, hfail, HostsManager.IsBlocked, removeSet, List.mem_filter]
  · simp [HostsManager.UpdateBlockedDomains, HostsManager.updateHostsFile,
      writeHostsFile_eq, hfail]

/-- Witness for C9 at a concrete all-failing environment. -/
theorem claim_C9_witness :
    ((HostsManager.strategyBits envNone).any id = false ∧
      goToLower (goTrimSpace (gs "A.com")) ≠ []) ∧
    HostsManager.IsBlocked
      (HostsManager.AddBlockedDomain envNone ⟨[], []⟩ [] (gs "A.com")).2.1
      (gs "A.com") = true :=
  ⟨⟨by decide, by decide⟩,
    (claim_C9_mutation_survives_write_failure envNone ⟨[], []⟩ [] (gs "A.com") []
      (by decide) (by decide)).1.2.2.1⟩

/-- C10: `GetBlockedDomains` filters out every `www.`-prefixed name; and
after `AddBlockedDomain` of a domain whose normalized form starts with
`"www."`, `IsBlocked` is true for it while it is absent from
`GetBlockedDomains` (the add does not create a extra variant for an
already-`www.` name). -/
theorem claim_C10_www_hidden_from_listing :
    (∀ (hm : HostsManager) (x : GoStr),
      x ∈ HostsManager.GetBlockedDomains hm → goStartsWith (gs "www.") x = false) ∧
    (∀ (e : HostsManager.WriteEnv) (hm : HostsManager) (disk dom : GoStr),
      goStartsWith (gs "www.") (goToLower (goTrimSpace dom)) = true →
      HostsManager.IsBlocked (HostsManager.AddBlockedDomain e hm disk dom).2.1 dom
          = true ∧
        goToLower (goTrimSpace dom) ∉
          HostsManager.GetBlockedDomains (HostsManager.AddBlockedDomain e hm disk dom).2.1) := by
  constructor
  · intro hm x hx
    have := (List.mem_filter.mp hx).2
    simpa using this
  · intro e hm disk dom hpre
    have hne : goToLower (goTrimSpace dom) ≠ [] := by
      intro h
      rw [h] at hpre
      exact absurd hpre (by decide)
    constructor
    · simp [HostsManager.AddBlockedDomain, hne, HostsManager.IsBlocked,
        mem_addWithWww]
    · simp [HostsManager.AddBlockedDomain, hne, HostsManager.GetBlockedDomains,
        List.mem_filter, hpre]

/-- Witness for C10's add-branch at a concrete `www.`-prefixed domain. -/
theorem claim_C10_witness :
    goStartsWith (gs "www.") (goToLower (goTrimSpace (gs "www.x.com"))) = true ∧
    HostsManager.IsBlocked
      (HostsManager.AddBlockedDomain envNone ⟨[], []⟩ [] (gs "www.x.com")).2.1
      (gs "www.x.com") = true :=
  ⟨by decide,
    (claim_C10_www_hidden_from_listing.2 envNone ⟨[], []⟩ [] (gs "www.x.com")
      (by decide)).1⟩

end KidSafe
